import Mathlib

/-!
Shallow embedding of the GAIN training code (src/gain.py) together with
proofs of the specification claims about it.

Tensors are modelled as flattened lists of real numbers.  The convolutional
backbone, the instrumented-layer capture values, the bilinear upsampling and
the BCE-with-logits criterion are external collaborators (torch / models.py)
and appear as opaque function fields of `ModelFun`; everything that gain.py
itself computes is translated directly from the source.
-/

namespace GainSpec

abbrev Tensor := List ℝ

/-- Logistic sigmoid, the function computed by F.sigmoid. -/
noncomputable def sigmoid (x : ℝ) : ℝ := 1 / (1 + Real.exp (-x))

/-- Pointwise soft mining mask of AttentionGAIN._mask_image (gain.py line 519):
mask = sigmoid(omega * (scaled_gcam - sigma)), applied to one normalized CAM
value v. -/
noncomputable def miningMask (omega sigma v : ℝ) : ℝ := sigmoid (omega * (v - sigma))

/-- Minimum entry of a tensor, as tensor.min() on a nonempty tensor. -/
noncomputable def listMin (l : Tensor) : ℝ := l.foldl min (l.headD 0)

/-- Maximum entry of a tensor, as tensor.max() on a nonempty tensor. -/
noncomputable def listMax (l : Tensor) : ℝ := l.foldl max (l.headD 0)

/-- AttentionGAIN._mask_image (gain.py lines 515-522) over ideal reals:
scaled_gcam = (gcam - gcam.min()) / (gcam.max() - gcam.min()),
mask = sigmoid(omega * (scaled_gcam - sigma)),
masked_image = image - image * mask.
Note the denominator carries no epsilon in the source.  This real-valued
version is used by the loss accounting; float finiteness is tracked by
`maskImageFloat` below. -/
noncomputable def maskImage (omega sigma : ℝ) (gcam image : Tensor) : Tensor :=
  let gcamMin := listMin gcam
  let gcamMax := listMax gcam
  let scaledGcam := gcam.map (fun g => (g - gcamMin) / (gcamMax - gcamMin))
  let mask := scaledGcam.map (fun v => miningMask omega sigma v)
  List.zipWith (fun x mk => x - x * mk) image mask

/-- Value of one float cell: either a finite real or a non-finite IEEE value
(NaN or an infinity).  Used to track finiteness through _mask_image. -/
inductive FloatVal where
  | fin : ℝ → FloatVal
  | nanF : FloatVal

/-- Float subtraction: any operation on a non-finite value is non-finite
(x - NaN = NaN in IEEE arithmetic). -/
def FloatVal.sub : FloatVal → FloatVal → FloatVal
  | .fin x, .fin y => .fin (x - y)
  | _, _ => .nanF

/-- Float multiplication with non-finite propagation (x * NaN = NaN). -/
def FloatVal.mul : FloatVal → FloatVal → FloatVal
  | .fin x, .fin y => .fin (x * y)
  | _, _ => .nanF

/-- Float division: division by zero is non-finite.  IEEE gives NaN for 0/0
and an infinity for x/0 with x nonzero; both are non-finite and on the
min-equals-max path below only 0/0 (exactly NaN) occurs, because every
numerator gcam - gcam.min() is then zero as well. -/
noncomputable def FloatVal.div : FloatVal → FloatVal → FloatVal
  | .fin x, .fin y => if y = 0 then .nanF else .fin (x / y)
  | _, _ => .nanF

/-- Float sigmoid: sigmoid(NaN) = NaN. -/
noncomputable def FloatVal.sigmoidF : FloatVal → FloatVal
  | .fin x => .fin (sigmoid x)
  | .nanF => .nanF

/-- AttentionGAIN._mask_image (gain.py lines 515-522) with float finiteness
tracked: the same arithmetic as `maskImage`, cell by cell, in `FloatVal`. -/
noncomputable def maskImageFloat (omega sigma : ℝ) (gcam image : Tensor) : List FloatVal :=
  let gcamMin := listMin gcam
  let gcamMax := listMax gcam
  let scaledGcam := gcam.map
    (fun g => FloatVal.div (.fin (g - gcamMin)) (.fin (gcamMax - gcamMin)))
  let mask := scaledGcam.map
    (fun v => FloatVal.sigmoidF (FloatVal.mul (.fin omega) (FloatVal.sub v (.fin sigma))))
  List.zipWith (fun x mk => FloatVal.sub (.fin x) (FloatVal.mul (.fin x) mk)) image mask

/-- C3: the claim asserts an epsilon-guarded denominator making the masked
image finite when the CAM minimum equals its maximum.  The source divides by
gcam.max() - gcam.min() with no epsilon (gain.py line 518), so a constant CAM
produces 0/0 = NaN in every cell of the masked image: on the constant CAM
[1, 1] with image [1, 1] the masked image is entirely non-finite.  (The
sibling heatmap scaler at gain.py line 285 does add the epsilon 1e-5,
showing the guarded denominator is the intent.) -/
theorem c3_constant_cam_divides_by_zero :
    maskImageFloat 10 (1/2) [1, 1] [1, 1] = [FloatVal.nanF, FloatVal.nanF] := by
  simp [maskImageFloat, listMin, listMax, FloatVal.div, FloatVal.mul, FloatVal.sub,
    FloatVal.sigmoidF, List.zipWith]

/-- Strict monotonicity of the sigmoid. -/
theorem sigmoid_strictMono {x y : ℝ} (h : x < y) : sigmoid x < sigmoid y := by
  unfold sigmoid
  have hx : (0 : ℝ) < 1 + Real.exp (-y) := by positivity
  have h2 : Real.exp (-y) < Real.exp (-x) := Real.exp_lt_exp.mpr (by linarith)
  have h3 := one_div_lt_one_div_of_lt hx (by linarith : 1 + Real.exp (-y) < 1 + Real.exp (-x))
  linarith

/-- C6: for fixed sigma and fixed normalized CAM value v, the mining mask
sigmoid(omega * (v - sigma)) of _mask_image (gain.py line 519) is monotonic
in omega: increasing omega moves the mask toward 0 for v below sigma and
toward 1 for v above sigma, with the hard threshold at sigma in the limit
omega → ∞. -/
theorem c6_miningMask_monotone_in_omega (sigma v : ℝ) :
    (∀ omega1 omega2 : ℝ, omega1 < omega2 → v < sigma →
      miningMask omega2 sigma v < miningMask omega1 sigma v)
  ∧ (∀ omega1 omega2 : ℝ, omega1 < omega2 → sigma < v →
      miningMask omega1 sigma v < miningMask omega2 sigma v)
  ∧ (v < sigma →
      Filter.Tendsto (fun omega => miningMask omega sigma v) Filter.atTop (nhds 0))
  ∧ (sigma < v →
      Filter.Tendsto (fun omega => miningMask omega sigma v) Filter.atTop (nhds 1)) := by
  refine ⟨?_, ?_, ?_, ?_⟩
  · intro o1 o2 h12 hv
    exact sigmoid_strictMono (by nlinarith)
  · intro o1 o2 h12 hv
    exact sigmoid_strictMono (by nlinarith)
  · intro hv
    have hc : (0 : ℝ) < sigma - v := by linarith
    have h1 : Filter.Tendsto (fun omega : ℝ => omega * (sigma - v)) Filter.atTop Filter.atTop :=
      Filter.Tendsto.atTop_mul_const hc Filter.tendsto_id
    have h2 : Filter.Tendsto (fun omega : ℝ => Real.exp (omega * (sigma - v)))
        Filter.atTop Filter.atTop := Real.tendsto_exp_atTop.comp h1
    have h3 : Filter.Tendsto (fun omega : ℝ => 1 + Real.exp (omega * (sigma - v)))
        Filter.atTop Filter.atTop := Filter.tendsto_atTop_add_const_left _ 1 h2
    have h4 := h3.inv_tendsto_atTop
    have : (fun omega : ℝ => miningMask omega sigma v) =
        fun omega : ℝ => (1 + Real.exp (omega * (sigma - v)))⁻¹ := by
      funext o
      simp only [miningMask, sigmoid, one_div]
      ring_nf
    rw [this]
    exact h4
  · intro hv
    have hc : (0 : ℝ) < v - sigma := by linarith
    have h1 : Filter.Tendsto (fun omega : ℝ => omega * (v - sigma)) Filter.atTop Filter.atTop :=
      Filter.Tendsto.atTop_mul_const hc Filter.tendsto_id
    have h2 : Filter.Tendsto (fun omega : ℝ => -(omega * (v - sigma)))
        Filter.atTop Filter.atBot := Filter.tendsto_neg_atBot_iff.mpr h1
    have h3 : Filter.Tendsto (fun omega : ℝ => Real.exp (-(omega * (v - sigma))))
        Filter.atTop (nhds 0) := Real.tendsto_exp_atBot.comp h2
    have h4 : Filter.Tendsto (fun omega : ℝ => 1 + Real.exp (-(omega * (v - sigma))))
        Filter.atTop (nhds 1) := by
      have := h3.const_add (1 : ℝ)
      simpa using this
    have h5 : Filter.Tendsto (fun omega : ℝ => (1 + Real.exp (-(omega * (v - sigma))))⁻¹)
        Filter.atTop (nhds 1) := by
      have := h4.inv₀ (by norm_num)
      simpa using this
    have : (fun omega : ℝ => miningMask omega sigma v) =
        fun omega : ℝ => (1 + Real.exp (-(omega * (v - sigma))))⁻¹ := by
      funext o
      simp only [miningMask, sigmoid, one_div]
    rw [this]
    exact h5

/-- Witness for C6 at sigma = 1, v = 0 and omega increasing from 1 to 2. -/
theorem c6_miningMask_monotone_in_omega_witness :
    miningMask 2 1 0 < miningMask 1 1 0
    ∧ Filter.Tendsto (fun omega => miningMask omega 1 0) Filter.atTop (nhds 0) :=
  ⟨(c6_miningMask_monotone_in_omega 1 0).1 1 2 (by norm_num) (by norm_num),
   (c6_miningMask_monotone_in_omega 1 0).2.2.1 (by norm_num)⟩

/-- Capture slot populated by the forward and backward hooks registered on
the instrumented layer (gain.py lines 113-128): the most recent activation
and the most recent incoming gradient, each a list of per-channel spatial
maps.  A field holds none while the corresponding attribute has not been
written yet. -/
structure CaptureState where
  lastActivation : Option (List Tensor)
  lastGrad : Option (List Tensor)

/-- External collaborators of one training session: the backbone model and
the framework primitives gain.py calls on it.  logits is model(data);
activation and gradCap are the values the forward and backward hooks store
for a given input (and backward seed label); upsample is F.upsample with
bilinear mode and aligned corners to the input resolution; bce is
torch.nn.BCEWithLogitsLoss.  All are opaque deterministic functions of
their arguments, the weights being fixed inside the record. -/
structure ModelFun where
  logits : Tensor → Tensor
  activation : Tensor → List Tensor
  gradCap : Tensor → Tensor → List Tensor
  upsample : Tensor → Tensor
  bce : Tensor → Tensor → ℝ

/-- Full-spatial-extent average pool of one channel (Eq 1, gain.py
lines 492-494). -/
noncomputable def channelMean (ch : Tensor) : ℝ := ch.sum / ch.length

/-- Per-channel weights w_c: the captured gradient pooled over the full
spatial extent, one weight per channel (gain.py lines 492-497). -/
noncomputable def gradWeights (grad : List Tensor) : List ℝ := grad.map channelMean

/-- Pointwise-convolution contraction of the activation channels by the weights
w_c (gain.py line 505): spatial position i holds the sum over channels of
w_c[ch] * activation[ch][i]. -/
noncomputable def contract (act : List Tensor) (w : List ℝ) : Tensor :=
  (List.zipWith (fun ch wc => ch.map (fun a => wc * a)) act w).foldl
    (fun acc ch => List.zipWith (fun x y => x + y) acc ch)
    (List.replicate (act.headD []).length 0)

/-- CAM computation from the capture slot (gain.py lines 491-506): pool the
captured gradient, contract the captured activation, rectify with relu,
upsample to the input resolution. -/
noncomputable def camStep (m : ModelFun) (s : CaptureState) : Tensor :=
  let grad := s.lastGrad.getD []
  let act := s.lastActivation.getD []
  let w := gradWeights grad
  let gcam := (contract act w).map (fun x => max x 0)
  m.upsample gcam

/-- Loop body of AttentionGAIN._attention_map_forward over labels (gain.py
lines 486-509), in accumulator form: for each label the backward pass fires
the backward hook, writing the captured gradient; the CAM is computed from
the capture slot; and the BCE classification loss for that label is added
to the running loss_cl. -/
noncomputable def amfLoop (m : ModelFun) (data outputCl : Tensor) :
    CaptureState → ℝ → List Tensor → List Tensor → CaptureState × ℝ × List Tensor
  | s, lossAcc, camsAcc, [] => (s, lossAcc, camsAcc.reverse)
  | s, lossAcc, camsAcc, label :: rest =>
      let s2 : CaptureState := { s with lastGrad := some (m.gradCap data label) }
      let aC := camStep m s2
      amfLoop m data outputCl s2 (lossAcc + m.bce outputCl label) (aC :: camsAcc) rest

/-- AttentionGAIN._attention_map_forward (gain.py lines 479-513): one
forward pass, whose forward hook records the activation, then the per-label
loop.  Returns the post capture state with (output_cl, loss_cl, A_cs). -/
noncomputable def attentionMapForward (m : ModelFun) (s : CaptureState)
    (data : Tensor) (labels : List Tensor) :
    CaptureState × Tensor × ℝ × List Tensor :=
  let outputCl := m.logits data
  let s1 : CaptureState := { s with lastActivation := some (m.activation data) }
  let r := amfLoop m data outputCl s1 0 [] labels
  (r.1, outputCl, r.2.1, r.2.2)

/-- Outputs of the per-label loop do not depend on the incoming capture
state beyond the activation field, because the captured gradient is written
before each read. -/
theorem amfLoop_state_independent (m : ModelFun) (data outputCl : Tensor)
    (labels : List Tensor) :
    ∀ (s t : CaptureState) (lossAcc : ℝ) (camsAcc : List Tensor),
      s.lastActivation = t.lastActivation →
      (amfLoop m data outputCl s lossAcc camsAcc labels).2 =
      (amfLoop m data outputCl t lossAcc camsAcc labels).2 := by
  induction labels with
  | nil =>
      intro s t lossAcc camsAcc _
      rfl
  | cons label rest ih =>
      intro s t lossAcc camsAcc h
      simp only [amfLoop]
      have hcam : camStep m { s with lastGrad := some (m.gradCap data label) } =
          camStep m { t with lastGrad := some (m.gradCap data label) } := by
        simp [camStep, h]
      rw [hcam]
      exact ih _ _ _ _ (by simp [h])

/-- Results of _attention_map_forward do not depend on the incoming capture
state at all: the forward hook overwrites the activation before the loop
reads it. -/
theorem attentionMapForward_state_independent (m : ModelFun) (data : Tensor)
    (labels : List Tensor) (s t : CaptureState) :
    (attentionMapForward m s data labels).2 = (attentionMapForward m t data labels).2 := by
  simp only [attentionMapForward]
  have h := amfLoop_state_independent m data (m.logits data) labels
    { s with lastActivation := some (m.activation data) }
    { t with lastActivation := some (m.activation data) } 0 [] rfl
  rw [h]

/-- C9: CAM extraction is deterministic: with fixed collaborators (fixed
weights), fixed input and fixed labels, running _attention_map_forward a
second time, starting from the capture state the first run left behind,
yields exactly the same (output_cl, loss_cl, A_cs) triple as the first
run. -/
theorem c9_attention_map_forward_deterministic (m : ModelFun) (s : CaptureState)
    (data : Tensor) (labels : List Tensor) :
    (attentionMapForward m (attentionMapForward m s data labels).1 data labels).2 =
    (attentionMapForward m s data labels).2 :=
  attentionMapForward_state_independent m data labels
    (attentionMapForward m s data labels).1 s

/-- Indices where the one-hot label tensor is nonzero (gain.py line 546:
label.view(-1).nonzero()). -/
noncomputable def nonzeroIdx (label : Tensor) : List ℕ :=
  (List.range label.length).filter (fun i => decide (label.getD i 0 ≠ 0))

/-- Mining loss for one label (Eq 5, gain.py lines 545-546): sigmoid of the
masked-image logits at the positions where the one-hot label is nonzero.
For the one-hot labels the training loop feeds in exactly one position is
selected, and the sum below is that single selected sigmoid, the scalar the
source adds into total_loss. -/
noncomputable def lossAmOf (outputAm label : Tensor) : ℝ :=
  ((nonzeroIdx label).map (fun i => sigmoid (outputAm.getD i 0))).sum

/-- Extra-supervision loss for one label (Eq 7, gain.py line 552):
((gcam - extra) ** 2).sum(). -/
noncomputable def lossEOf (gcam extra : Tensor) : ℝ :=
  (List.zipWith (fun g e => (g - e) ^ 2) gcam extra).sum

/-- Softmax over the logits (gain.py line 531). -/
noncomputable def softmax (l : Tensor) : Tensor :=
  let s := (l.map Real.exp).sum
  l.map (fun x => Real.exp x / s)

/-- Index of the first maximal entry, as tensor.max(dim=1)[1] on a
batch-of-one tensor. -/
noncomputable def idxOfMax (l : Tensor) : ℕ :=
  (l.foldl (fun st x =>
    if st.2.1 < x then (st.2.2, x, st.2.2 + 1) else (st.1, st.2.1, st.2.2 + 1))
    ((0 : ℕ), l.headD 0, (0 : ℕ))).1

/-- Classification accuracy (gain.py lines 555-556) for the batch-of-one
case: 1 when the softmax argmax matches the label argmax, else 0. -/
noncomputable def clAccOf (outputClSoftmax label : Tensor) : ℝ :=
  if idxOfMax outputClSoftmax = idxOfMax label then 1 else 0

/-- Python-style zip of three lists, truncating at the shortest. -/
def zip3 {α β γ : Type} : List α → List β → List γ → List (α × β × γ)
  | a :: as, b :: bs, c :: cs => (a, b, c) :: zip3 as bs cs
  | _, _, _ => []

/-- Running state of the mining loop of _forward (gain.py lines 524-553).
lossAm and lastLabel are none until the first iteration binds them, exactly
as the Python locals loss_am and label are unbound before the loop runs;
lossE is initialised to 0 (gain.py line 527) and only reassigned when a
ground-truth mask is present. -/
structure ForwardAcc where
  iStars : List Tensor
  lossAm : Option ℝ
  lossE : ℝ
  totalLoss : ℝ
  lastLabel : Option Tensor

/-- Mining loop of _forward (gain.py lines 538-553): per zipped
(gcam, label, extra) triple, mask the image, re-run the model on the masked
image, take the mining loss, add alpha * loss_am into total_loss, and when
a ground-truth mask is present recompute loss_e and add omega * loss_e. -/
noncomputable def forwardLoop (m : ModelFun) (alpha omega sigma : ℝ) (data : Tensor) :
    ForwardAcc → List (Tensor × Tensor × Option Tensor) → ForwardAcc
  | acc, [] => acc
  | acc, (gcam, label, extra) :: rest =>
      let iStar := maskImage omega sigma gcam data
      let outputAm := m.logits iStar
      let lAm := lossAmOf outputAm label
      let total1 := acc.totalLoss + alpha * lAm
      let next : ForwardAcc :=
        match extra with
        | some ex =>
            let lE := lossEOf gcam ex
            { iStars := acc.iStars ++ [iStar], lossAm := some lAm, lossE := lE,
              totalLoss := total1 + omega * lE, lastLabel := some label }
        | none =>
            { iStars := acc.iStars ++ [iStar], lossAm := some lAm, lossE := acc.lossE,
              totalLoss := total1, lastLabel := some label }
      forwardLoop m alpha omega sigma data next rest

/-- Defaulting of extra_super in _forward (gain.py lines 534-535): when no
ground-truth mask list is supplied, a list of None of the same length as
labels is used. -/
def extrasOf (labels : List Tensor) (extraSuper : Option (List (Option Tensor))) :
    List (Option Tensor) :=
  match extraSuper with
  | none => List.replicate labels.length none
  | some es => es

/-- Result dictionary of _forward (gain.py lines 558-565). -/
structure ForwardResult where
  totalLoss : ℝ
  lossCl : ℝ
  lossAm : Option ℝ
  lossE : ℝ
  outputClSoftmax : Tensor
  clAcc : Option ℝ
  gcams : List Tensor
  iStars : List Tensor

/-- AttentionGAIN._forward (gain.py lines 524-565): CAM extraction, then the
mining loop over zip(gcams, labels, extra_super), then the result bundle.
The loss_am, loss_e and cl_acc entries hold whatever the loop variables
hold after the final iteration, while total_loss carries the accumulated
sum started at 0 + loss_cl (gain.py lines 528, 532). -/
noncomputable def forwardPass (m : ModelFun) (alpha omega sigma : ℝ)
    (s : CaptureState) (data : Tensor) (labels : List Tensor)
    (extraSuper : Option (List (Option Tensor))) : CaptureState × ForwardResult :=
  let r := attentionMapForward m s data labels
  let outputCl := r.2.1
  let lossCl := r.2.2.1
  let gcams := r.2.2.2
  let outputClSoftmax := softmax outputCl
  let total0 : ℝ := 0 + lossCl
  let acc := forwardLoop m alpha omega sigma data
    { iStars := [], lossAm := none, lossE := 0, totalLoss := total0, lastLabel := none }
    (zip3 gcams labels (extrasOf labels extraSuper))
  (r.1,
   { totalLoss := acc.totalLoss, lossCl := lossCl, lossAm := acc.lossAm,
     lossE := acc.lossE, outputClSoftmax := outputClSoftmax,
     clAcc := acc.lastLabel.map (fun lb => clAccOf outputClSoftmax lb),
     gcams := gcams, iStars := acc.iStars })

/-- Mining loss of one zipped triple, as an independent function of the
inputs: the loss the loop adds (weighted by alpha) for that triple. -/
noncomputable def tripleMiningLoss (m : ModelFun) (omega sigma : ℝ) (data : Tensor)
    (t : Tensor × Tensor × Option Tensor) : ℝ :=
  lossAmOf (m.logits (maskImage omega sigma t.1 data)) t.2.1

/-- Accumulated mining loss over the zipped triples. -/
noncomputable def miningLossSum (m : ModelFun) (omega sigma : ℝ) (data : Tensor)
    (ts : List (Tensor × Tensor × Option Tensor)) : ℝ :=
  (ts.map (tripleMiningLoss m omega sigma data)).sum

/-- Accumulated extra-supervision loss over the zipped triples: each triple
carrying a ground-truth mask contributes its loss_e, the others zero. -/
noncomputable def extraLossSum (ts : List (Tensor × Tensor × Option Tensor)) : ℝ :=
  (ts.map (fun t => match t.2.2 with
    | some ex => lossEOf t.1 ex
    | none => 0)).sum

/-- Zipped triples a given forward pass iterates over. -/
noncomputable def forwardTriples (m : ModelFun) (s : CaptureState) (data : Tensor)
    (labels : List Tensor) (extraSuper : Option (List (Option Tensor))) :
    List (Tensor × Tensor × Option Tensor) :=
  zip3 (attentionMapForward m s data labels).2.2.2 labels (extrasOf labels extraSuper)

/-- Invariant of the mining loop: the final total_loss is the incoming
total_loss plus alpha times the accumulated mining loss plus omega times
the accumulated extra-supervision loss. -/
theorem forwardLoop_totalLoss (m : ModelFun) (alpha omega sigma : ℝ) (data : Tensor) :
    ∀ (ts : List (Tensor × Tensor × Option Tensor)) (acc : ForwardAcc),
      (forwardLoop m alpha omega sigma data acc ts).totalLoss =
        acc.totalLoss + alpha * miningLossSum m omega sigma data ts
          + omega * extraLossSum ts := by
  intro ts
  induction ts with
  | nil =>
      intro acc
      simp [forwardLoop, miningLossSum, extraLossSum]
  | cons t rest ih =>
      intro acc
      obtain ⟨gcam, label, extra⟩ := t
      cases extra with
      | none =>
          simp only [forwardLoop]
          rw [ih]
          simp only [miningLossSum, extraLossSum, tripleMiningLoss, List.map_cons,
            List.sum_cons]
          ring
      | some ex =>
          simp only [forwardLoop]
          rw [ih]
          simp only [miningLossSum, extraLossSum, tripleMiningLoss, List.map_cons,
            List.sum_cons]
          ring

/-- Zipping against an all-None extra list contributes no extra loss. -/
theorem extraLossSum_replicate_none :
    ∀ (as bs : List Tensor) (n : ℕ),
      extraLossSum (zip3 as bs (List.replicate n (none : Option Tensor))) = 0 := by
  intro as
  induction as with
  | nil =>
      intro bs n
      cases bs <;> cases n <;> simp [zip3, extraLossSum]
  | cons a as ih =>
      intro bs n
      cases bs with
      | nil => cases n <;> simp [zip3, extraLossSum]
      | cons b bs =>
          cases n with
          | zero => simp [zip3, extraLossSum]
          | succ k =>
              have h := ih bs k
              simp only [List.replicate, zip3, extraLossSum, List.map_cons,
                List.sum_cons] at h ⊢
              rw [h]
              norm_num

/-- C1: for every forward pass the total loss equals the classification
loss plus alpha times the accumulated mining loss plus omega times the
accumulated extra-supervision loss of the labels whose ground-truth masks
are provided; and when no ground-truth masks are supplied at all the total
loss equals classification loss plus alpha times the mining loss exactly,
the extra-supervision term being additive zero. -/
theorem c1_total_loss_decomposition (m : ModelFun) (alpha omega sigma : ℝ)
    (s : CaptureState) (data : Tensor) (labels : List Tensor)
    (extraSuper : Option (List (Option Tensor))) :
    ((forwardPass m alpha omega sigma s data labels extraSuper).2.totalLoss =
      (forwardPass m alpha omega sigma s data labels extraSuper).2.lossCl
        + alpha * miningLossSum m omega sigma data
            (forwardTriples m s data labels extraSuper)
        + omega * extraLossSum (forwardTriples m s data labels extraSuper))
  ∧ (extraSuper = none →
      (forwardPass m alpha omega sigma s data labels extraSuper).2.totalLoss =
        (forwardPass m alpha omega sigma s data labels extraSuper).2.lossCl
          + alpha * miningLossSum m omega sigma data
              (forwardTriples m s data labels extraSuper)) := by
  constructor
  · simp only [forwardPass, forwardTriples]
    rw [forwardLoop_totalLoss]
    ring
  · intro h
    subst h
    simp only [forwardPass, forwardTriples]
    rw [forwardLoop_totalLoss]
    simp only [extrasOf]
    rw [extraLossSum_replicate_none]
    ring

/-- Tiny concrete collaborator bundle used by the witnesses: one logit that
is always 0, empty capture values, identity upsampling, zero criterion. -/
noncomputable def demoModel : ModelFun :=
  { logits := fun _ => [0], activation := fun _ => [], gradCap := fun _ _ => [],
    upsample := fun t => t, bce := fun _ _ => 0 }

/-- Witness for C1: with no ground-truth masks supplied, total loss equals
classification loss plus alpha times the accumulated mining loss. -/
theorem c1_total_loss_decomposition_witness :
    (forwardPass demoModel 1 1 (1/2) ⟨none, none⟩ [0] [[1]] none).2.totalLoss =
      (forwardPass demoModel 1 1 (1/2) ⟨none, none⟩ [0] [[1]] none).2.lossCl
        + 1 * miningLossSum demoModel 1 (1/2) [0]
            (forwardTriples demoModel ⟨none, none⟩ [0] [[1]] none) :=
  (c1_total_loss_decomposition demoModel 1 1 (1/2) ⟨none, none⟩ [0] [[1]] none).2 rfl

/-- Value of the sigmoid at zero. -/
theorem sigmoid_zero : sigmoid 0 = 1/2 := by
  norm_num [sigmoid, Real.exp_zero]

/-- The mining loop leaves loss_am and the loop label variable holding the
values of the last zipped triple. -/
theorem forwardLoop_last_fields (m : ModelFun) (alpha omega sigma : ℝ) (data : Tensor) :
    ∀ (ts : List (Tensor × Tensor × Option Tensor)) (acc : ForwardAcc)
      (g lb : Tensor) (ex : Option Tensor),
      ts.getLast? = some (g, lb, ex) →
      (forwardLoop m alpha omega sigma data acc ts).lossAm =
          some (tripleMiningLoss m omega sigma data (g, lb, ex))
        ∧ (forwardLoop m alpha omega sigma data acc ts).lastLabel = some lb := by
  intro ts
  induction ts with
  | nil =>
      intro acc g lb ex h
      simp at h
  | cons t rest ih =>
      intro acc g lb ex h
      cases rest with
      | nil =>
          simp only [List.getLast?_singleton, Option.some.injEq] at h
          subst h
          cases ex with
          | none => simp [forwardLoop, tripleMiningLoss]
          | some e => simp [forwardLoop, tripleMiningLoss]
      | cons t2 rest2 =>
          rw [List.getLast?_cons_cons] at h
          obtain ⟨g0, lb0, ex0⟩ := t
          cases ex0 with
          | none => exact ih _ g lb ex h
          | some e0 => exact ih _ g lb ex h

/-- Final loss_e of the loop, as a fold keeping the last value computed for
a triple carrying a ground-truth mask. -/
noncomputable def lastLossE (init : ℝ) (ts : List (Tensor × Tensor × Option Tensor)) : ℝ :=
  ts.foldl (fun cur t => match t.2.2 with
    | some ex => lossEOf t.1 ex
    | none => cur) init

/-- The mining loop leaves loss_e holding the fold of the loop over the
triples. -/
theorem forwardLoop_lossE (m : ModelFun) (alpha omega sigma : ℝ) (data : Tensor) :
    ∀ (ts : List (Tensor × Tensor × Option Tensor)) (acc : ForwardAcc),
      (forwardLoop m alpha omega sigma data acc ts).lossE = lastLossE acc.lossE ts := by
  intro ts
  induction ts with
  | nil =>
      intro acc
      rfl
  | cons t rest ih =>
      intro acc
      obtain ⟨g, lb, ex⟩ := t
      cases ex with
      | none =>
          simp only [forwardLoop]
          rw [ih]
          simp [lastLossE]
      | some e =>
          simp only [forwardLoop]
          rw [ih]
          simp [lastLossE]

/-- When the last triple carries a ground-truth mask, the loss_e fold ends
at exactly that mask loss. -/
theorem lastLossE_getLast_some :
    ∀ (ts : List (Tensor × Tensor × Option Tensor)) (init : ℝ) (g lb e : Tensor),
      ts.getLast? = some (g, lb, some e) → lastLossE init ts = lossEOf g e := by
  intro ts
  induction ts with
  | nil =>
      intro init g lb e h
      simp at h
  | cons t rest ih =>
      intro init g lb e h
      cases rest with
      | nil =>
          simp only [List.getLast?_singleton, Option.some.injEq] at h
          subst h
          simp [lastLossE]
      | cons t2 rest2 =>
          rw [List.getLast?_cons_cons] at h
          exact ih _ g lb e h

/-- Output logits of _attention_map_forward are the model applied to the
data. -/
theorem attentionMapForward_outputCl (m : ModelFun) (s : CaptureState)
    (data : Tensor) (labels : List Tensor) :
    (attentionMapForward m s data labels).2.1 = m.logits data := rfl

/-- Shared helper: the reported fields of a forward pass come from the last
zipped triple, while total_loss carries the accumulation. -/
theorem forwardPass_reported_fields (m : ModelFun) (alpha omega sigma : ℝ)
    (s : CaptureState) (data : Tensor) (labels : List Tensor)
    (extraSuper : Option (List (Option Tensor))) (g lb : Tensor) (ex : Option Tensor)
    (h : (forwardTriples m s data labels extraSuper).getLast? = some (g, lb, ex)) :
    (forwardPass m alpha omega sigma s data labels extraSuper).2.lossAm =
        some (tripleMiningLoss m omega sigma data (g, lb, ex))
      ∧ (∀ e, ex = some e →
          (forwardPass m alpha omega sigma s data labels extraSuper).2.lossE =
            lossEOf g e)
      ∧ (forwardPass m alpha omega sigma s data labels extraSuper).2.clAcc =
          some (clAccOf (softmax (m.logits data)) lb)
      ∧ (forwardPass m alpha omega sigma s data labels extraSuper).2.totalLoss =
          (forwardPass m alpha omega sigma s data labels extraSuper).2.lossCl
            + alpha * miningLossSum m omega sigma data
                (forwardTriples m s data labels extraSuper)
            + omega * extraLossSum (forwardTriples m s data labels extraSuper) := by
  refine ⟨?_, ?_, ?_, ?_⟩
  · simp only [forwardPass, forwardTriples] at h ⊢
    exact (forwardLoop_last_fields m alpha omega sigma data _ _ g lb ex h).1
  · intro e he
    subst he
    simp only [forwardPass, forwardTriples] at h ⊢
    rw [forwardLoop_lossE]
    exact lastLossE_getLast_some _ _ g lb e h
  · simp only [forwardPass, forwardTriples, attentionMapForward_outputCl] at h ⊢
    rw [(forwardLoop_last_fields m alpha omega sigma data _ _ g lb ex h).2]
    simp
  · simp only [forwardPass, forwardTriples]
    rw [forwardLoop_totalLoss]
    ring

/-- Evaluation of the zipped triples of the demo forward pass with two
identical one-hot labels. -/
theorem demoTriples_eval :
    forwardTriples demoModel ⟨none, none⟩ [0] [[1], [1]] none =
      [([], [1], none), ([], [1], none)] := by
  simp [forwardTriples, attentionMapForward, amfLoop, camStep, gradWeights, contract,
    demoModel, extrasOf, zip3]

/-- Evaluation of the nonzero-index selection of the one-hot label [1]. -/
theorem demoNonzeroIdx_eval : nonzeroIdx [1] = [0] := by
  norm_num [nonzeroIdx, List.filter]

/-- Evaluation of the per-triple mining loss of the demo forward pass. -/
theorem demoTripleMiningLoss_eval :
    tripleMiningLoss demoModel 1 (1/2) [0] ([], [1], none) = sigmoid 0 := by
  simp [tripleMiningLoss, lossAmOf, demoNonzeroIdx_eval, demoModel]

/-- C10: over a label list with more than one label, the returned loss_am,
loss_e and cl_acc come from the last zipped label only (the loop variables
after the final iteration), while total_loss accumulates the mining and
extra-supervision contributions of every label; consequently the reported
per-field mining loss can differ from the amount actually added into
total_loss, as the concrete two-label instance of the second conjunct
shows. -/
theorem c10_reported_fields_from_last_label :
    (∀ (m : ModelFun) (alpha omega sigma : ℝ) (s : CaptureState) (data : Tensor)
        (labels : List Tensor) (extraSuper : Option (List (Option Tensor)))
        (g lb : Tensor) (ex : Option Tensor),
        2 ≤ labels.length →
        (forwardTriples m s data labels extraSuper).getLast? = some (g, lb, ex) →
        (forwardPass m alpha omega sigma s data labels extraSuper).2.lossAm =
            some (tripleMiningLoss m omega sigma data (g, lb, ex))
          ∧ (∀ e, ex = some e →
              (forwardPass m alpha omega sigma s data labels extraSuper).2.lossE =
                lossEOf g e)
          ∧ (forwardPass m alpha omega sigma s data labels extraSuper).2.clAcc =
              some (clAccOf (softmax (m.logits data)) lb)
          ∧ (forwardPass m alpha omega sigma s data labels extraSuper).2.totalLoss =
              (forwardPass m alpha omega sigma s data labels extraSuper).2.lossCl
                + alpha * miningLossSum m omega sigma data
                    (forwardTriples m s data labels extraSuper)
                + omega * extraLossSum (forwardTriples m s data labels extraSuper))
  ∧ (∃ (m : ModelFun) (alpha omega sigma : ℝ) (s : CaptureState) (data : Tensor)
        (labels : List Tensor),
        2 ≤ labels.length ∧
        (forwardPass m alpha omega sigma s data labels none).2.lossAm ≠
          some (alpha * miningLossSum m omega sigma data
            (forwardTriples m s data labels none))) := by
  constructor
  · intro m alpha omega sigma s data labels extraSuper g lb ex _ h
    exact forwardPass_reported_fields m alpha omega sigma s data labels extraSuper
      g lb ex h
  · refine ⟨demoModel, 1, 1, 1/2, ⟨none, none⟩, [0], [[1], [1]], by norm_num, ?_⟩
    have hlast : (forwardTriples demoModel ⟨none, none⟩ [0] [[1], [1]] none).getLast? =
        some ([], [1], none) := by
      rw [demoTriples_eval]
      rfl
    have hAm := (forwardPass_reported_fields demoModel 1 1 (1/2) ⟨none, none⟩ [0]
      [[1], [1]] none [] [1] none hlast).1
    rw [hAm, demoTripleMiningLoss_eval]
    have hmine : miningLossSum demoModel 1 (1/2) [0]
        (forwardTriples demoModel ⟨none, none⟩ [0] [[1], [1]] none) =
        sigmoid 0 + sigmoid 0 := by
      rw [demoTriples_eval]
      simp only [miningLossSum, List.map_cons, List.map_nil, List.sum_cons,
        List.sum_nil]
      rw [demoTripleMiningLoss_eval]
      ring
    rw [hmine]
    intro hcontr
    have := Option.some.inj hcontr
    rw [sigmoid_zero] at this
    norm_num at this

/-- Witness for C10 at the demo forward pass with two one-hot labels: the
reported loss_am is the mining loss of the last zipped triple. -/
theorem c10_reported_fields_from_last_label_witness :
    (forwardPass demoModel 1 1 (1/2) ⟨none, none⟩ [0] [[1], [1]] none).2.lossAm =
      some (tripleMiningLoss demoModel 1 (1/2) [0] ([], [1], none)) :=
  (c10_reported_fields_from_last_label.1 demoModel 1 1 (1/2) ⟨none, none⟩ [0]
    [[1], [1]] none [] [1] none (by norm_num)
    (by rw [demoTriples_eval]; rfl)).1

/-- Which loss the training loop backpropagates for one batch (gain.py
lines 379-391). -/
inductive BackpropChoice where
  | totalLoss
  | lossClOnly
deriving DecidableEq

/-- Per-epoch latch update of AttentionGAIN.train (gain.py lines 351-352):
pretrain_finished = pretrain_finished or i > pretrain_epochs. -/
def pretrainStep (pretrainEpochs : ℕ) (flag : Bool) (i : ℕ) : Bool :=
  flag || decide (pretrainEpochs < i)

/-- Epoch trace of AttentionGAIN.train (gain.py lines 347-397) over a list
of epoch indices: each entry records the epoch index, the latch value in
force during that epoch's batches, and which loss is backpropagated for
them. -/
def trainFlagTrace (pretrainEpochs : ℕ) :
    Bool → List ℕ → List (ℕ × Bool × BackpropChoice)
  | _, [] => []
  | flag, i :: rest =>
      let flag2 := pretrainStep pretrainEpochs flag i
      (i, flag2,
        if flag2 then BackpropChoice.totalLoss else BackpropChoice.lossClOnly) ::
        trainFlagTrace pretrainEpochs flag2 rest

/-- Full epoch trace of a training run over range(self.epoch, epochs, 1)
(gain.py line 349) with the latch initially false (gain.py line 347). -/
def trainTrace (startEpoch epochs pretrainEpochs : ℕ) :
    List (ℕ × Bool × BackpropChoice) :=
  trainFlagTrace pretrainEpochs false (List.range' startEpoch (epochs - startEpoch))

/-- Characterisation of the latch along an ascending epoch range: during
epoch i the latch holds the incoming flag joined with i > P. -/
theorem trainFlagTrace_mem (pretrainEpochs : ℕ) :
    ∀ (n s : ℕ) (flag : Bool) (i : ℕ) (f : Bool) (c : BackpropChoice),
      (i, f, c) ∈ trainFlagTrace pretrainEpochs flag (List.range' s n) →
      f = (flag || decide (pretrainEpochs < i))
        ∧ c = (if f then BackpropChoice.totalLoss else BackpropChoice.lossClOnly)
        ∧ s ≤ i := by
  intro n
  induction n with
  | zero =>
      intro s flag i f c h
      simp [trainFlagTrace] at h
  | succ k ih =>
      intro s flag i f c h
      rw [List.range'_succ] at h
      simp only [trainFlagTrace, List.mem_cons] at h
      rcases h with h | h
      · obtain ⟨h1, h2, h3⟩ : i = s ∧ f = pretrainStep pretrainEpochs flag s
            ∧ c = (if pretrainStep pretrainEpochs flag s then BackpropChoice.totalLoss
                else BackpropChoice.lossClOnly) := by
          simpa [Prod.ext_iff] using h
        subst h1
        subst h2
        subst h3
        exact ⟨rfl, rfl, le_refl _⟩
      · obtain ⟨hf, hc, hs⟩ := ih (s + 1) (pretrainStep pretrainEpochs flag s) i f c h
        refine ⟨?_, hc, by omega⟩
        rw [hf]
        by_cases hp : pretrainEpochs < s
        · have hpi : pretrainEpochs < i := by omega
          simp [pretrainStep, hp, hpi]
        · simp [pretrainStep, hp]

/-- C2: along any training run the pretraining latch is false exactly for
the epochs with index at most pretrain_epochs, flips true at the first
epoch whose index exceeds pretrain_epochs and never flips back, and while
it is false only the classification loss is backpropagated while once it
is true the total loss is backpropagated. -/
theorem c2_pretrain_latch (startEpoch epochs pretrainEpochs : ℕ) :
    ∀ (i : ℕ) (f : Bool) (c : BackpropChoice),
      (i, f, c) ∈ trainTrace startEpoch epochs pretrainEpochs →
      (f = decide (pretrainEpochs < i))
        ∧ (i ≤ pretrainEpochs → f = false ∧ c = BackpropChoice.lossClOnly)
        ∧ (pretrainEpochs < i → f = true ∧ c = BackpropChoice.totalLoss)
        ∧ (∀ (j : ℕ) (f2 : Bool) (c2 : BackpropChoice),
            (j, f2, c2) ∈ trainTrace startEpoch epochs pretrainEpochs →
            i ≤ j → f = true → f2 = true) := by
  intro i f c h
  obtain ⟨hf, hc, _⟩ := trainFlagTrace_mem pretrainEpochs _ _ _ i f c h
  have hf2 : f = decide (pretrainEpochs < i) := by simpa using hf
  refine ⟨hf2, ?_, ?_, ?_⟩
  · intro hle
    have hfalse : f = false := by
      rw [hf2]
      simpa using Nat.not_lt.mpr hle
    exact ⟨hfalse, by rw [hc, hfalse]; rfl⟩
  · intro hlt
    have htrue : f = true := by
      rw [hf2]
      simpa using hlt
    exact ⟨htrue, by rw [hc, htrue]; rfl⟩
  · intro j f2 c2 h2 hij htrue
    obtain ⟨hf2j, _, _⟩ := trainFlagTrace_mem pretrainEpochs _ _ _ j f2 c2 h2
    have hlt : pretrainEpochs < i := by
      rw [hf2] at htrue
      simpa using htrue
    have : pretrainEpochs < j := lt_of_lt_of_le hlt hij
    rw [hf2j]
    simpa using this

/-- Witness for C2: in a run from epoch 0 to 3 with pretrain_epochs = 0,
epoch 1 runs with the latch true (total loss backpropagated), and the
latch value matches epoch > pretrain_epochs. -/
theorem c2_pretrain_latch_witness :
    ((1 : ℕ), true, BackpropChoice.totalLoss) ∈ trainTrace 0 3 0
    ∧ true = decide ((0 : ℕ) < 1) :=
  ⟨by decide, (c2_pretrain_latch 0 3 0 1 true BackpropChoice.totalLoss (by decide)).1⟩

/-- Events touching the model's parameter gradients within one training
step. -/
inductive TrainEvent where
  | camBackward (labelIdx : ℕ)
  | zeroGradParams
  | lossBackward
  | optimizerStep
deriving DecidableEq

/-- Gradient-relevant events of _attention_map_forward (gain.py lines
486-511): one backward pass per label of the batch, then a single
model.zero_grad() after the loop. -/
def amfEvents (numLabels : ℕ) : List TrainEvent :=
  ((List.range numLabels).map TrainEvent.camBackward) ++ [TrainEvent.zeroGradParams]

/-- Gradient-relevant events of one batch of AttentionGAIN.train (gain.py
lines 363-398): the forward pass runs _attention_map_forward, then the
selected loss is backpropagated, then opt.step() runs. -/
def trainStepEvents (numLabels : ℕ) : List TrainEvent :=
  amfEvents numLabels ++ [TrainEvent.lossBackward, TrainEvent.optimizerStep]

/-- Positional characterisation of the per-step event trace. -/
theorem trainStepEvents_get (n j : ℕ) :
    (trainStepEvents n).get? j =
      if j < n then some (TrainEvent.camBackward j)
      else if j = n then some TrainEvent.zeroGradParams
      else if j = n + 1 then some TrainEvent.lossBackward
      else if j = n + 2 then some TrainEvent.optimizerStep
      else none := by
  have hlen : ((List.range n).map TrainEvent.camBackward).length = n := by simp
  by_cases h1 : j < n
  · rw [trainStepEvents, amfEvents, List.append_assoc, List.get?_append (by omega),
      List.get?_map]
    simp [List.get?_range h1, h1]
  · rw [trainStepEvents, amfEvents, List.append_assoc,
      List.get?_append_right (by omega)]
    rw [hlen]
    have h2 : j - n = 0 ∨ j - n = 1 ∨ j - n = 2 ∨ 3 ≤ j - n := by omega
    rcases h2 with h2 | h2 | h2 | h2
    · have : j = n := by omega
      simp [h2, this]
    · have hj : j = n + 1 := by omega
      simp [h2, hj]
    · have hj : j = n + 2 := by omega
      simp [h2, hj]
    · have hjn : ¬ j = n := by omega
      have hj1 : ¬ j = n + 1 := by omega
      have hj2 : ¬ j = n + 2 := by omega
      rw [List.get?_eq_none.mpr (by simp; omega)]
      simp [h1, hjn, hj1, hj2]

/-- C4: within every training step the parameter gradients accumulated by
the per-label CAM backward passes are cleared exactly once, the clearing
comes after every CAM backward pass (hence after the last label's CAM has
been extracted), and it comes before the optimizer step of the batch. -/
theorem c4_zero_grad_once_between_cams_and_step (n : ℕ) :
    ((trainStepEvents n).count TrainEvent.zeroGradParams = 1)
  ∧ (∀ i k, (trainStepEvents n).get? i = some (TrainEvent.camBackward k) →
      ∀ j, (trainStepEvents n).get? j = some TrainEvent.zeroGradParams → i < j)
  ∧ (∀ j j2, (trainStepEvents n).get? j = some TrainEvent.zeroGradParams →
      (trainStepEvents n).get? j2 = some TrainEvent.optimizerStep → j < j2) := by
  refine ⟨?_, ?_, ?_⟩
  · rw [trainStepEvents, amfEvents, List.append_assoc, List.count_append]
    have h0 : ((List.range n).map TrainEvent.camBackward).count
        TrainEvent.zeroGradParams = 0 := by
      rw [List.count_eq_zero]
      intro hmem
      obtain ⟨a, _, ha⟩ := List.mem_map.mp hmem
      exact TrainEvent.noConfusion ha
    rw [h0]
    decide
  · intro i k hi j hj
    rw [trainStepEvents_get] at hi hj
    split_ifs at hi hj <;> simp_all
  · intro j j2 hj hj2
    rw [trainStepEvents_get] at hj hj2
    split_ifs at hj hj2 <;> simp_all

/-- Witness for C4 with a two-label batch: the first CAM backward sits at
position 0 and the zeroing event at position 2, so the clearing follows
it. -/
theorem c4_zero_grad_once_between_cams_and_step_witness :
    (trainStepEvents 2).get? 0 = some (TrainEvent.camBackward 0)
    ∧ (trainStepEvents 2).get? 2 = some TrainEvent.zeroGradParams
    ∧ 0 < 2 :=
  ⟨by decide, by decide,
   (c4_zero_grad_once_between_cams_and_step 2).2.1 0 0 (by decide) 2 (by decide)⟩

/-- Dataset metadata the compatibility check reads (gain.py lines
319-330). -/
structure RdsMeta where
  output_dims : List ℕ
  output_channels : ℕ
  categories : List String

/-- Dataset-incompatibility errors of _check_dataset_compatability. -/
inductive CompatErr where
  | dims
  | channels
  | labelSet
deriving DecidableEq

/-- AttentionGAIN._check_dataset_compatability (gain.py lines 319-330):
output dimensions, then channel count, then label set are compared against
the model configuration, each mismatch raising a dataset-incompatibility
ValueError. -/
def checkDatasetCompat (inputDims : List ℕ) (inputChannels : ℕ)
    (modelLabels : List String) (rds : RdsMeta) : Except CompatErr Unit :=
  if rds.output_dims ≠ inputDims then .error .dims
  else if rds.output_channels ≠ inputChannels then .error .channels
  else if rds.categories ≠ modelLabels then .error .labelSet
  else .ok ()

/-- Start of AttentionGAIN.train (gain.py lines 333-363): the compatibility
check is the first statement; only when it passes does the loop process the
training batches, whose indices the successful result lists. -/
def trainStartBatches (inputDims : List ℕ) (inputChannels : ℕ)
    (modelLabels : List String) (rds : RdsMeta) (numBatches : ℕ) :
    Except CompatErr (List ℕ) :=
  match checkDatasetCompat inputDims inputChannels modelLabels rds with
  | .error e => .error e
  | .ok _ => .ok (List.range numBatches)

/-- C5: a dataset whose output dimensions, channel count and label set all
match the model configuration passes the session compatibility check and
the run proceeds to the batches; any mismatch makes the run fail with a
dataset-incompatibility error with no batch processed. -/
theorem c5_dataset_compatibility_check (inputDims : List ℕ) (inputChannels : ℕ)
    (modelLabels : List String) (rds : RdsMeta) (numBatches : ℕ) :
    ((rds.output_dims = inputDims ∧ rds.output_channels = inputChannels
        ∧ rds.categories = modelLabels) →
      trainStartBatches inputDims inputChannels modelLabels rds numBatches =
        .ok (List.range numBatches))
  ∧ (¬ (rds.output_dims = inputDims ∧ rds.output_channels = inputChannels
        ∧ rds.categories = modelLabels) →
      ∃ e, trainStartBatches inputDims inputChannels modelLabels rds numBatches =
        .error e) := by
  constructor
  · rintro ⟨h1, h2, h3⟩
    simp [trainStartBatches, checkDatasetCompat, h1, h2, h3]
  · intro h
    unfold trainStartBatches checkDatasetCompat
    split_ifs with hd hc hl
    · exact ⟨.dims, rfl⟩
    · exact ⟨.channels, rfl⟩
    · exact ⟨.labelSet, rfl⟩
    · rw [not_ne_iff] at hd hc hl
      exact absurd ⟨hd, hc, hl⟩ h

/-- Witness for C5: a matching dataset metadata triple passes the check and
training reaches the batches. -/
theorem c5_dataset_compatibility_check_witness :
    trainStartBatches [4, 4] 1 ["a", "b"] ⟨[4, 4], 1, ["a", "b"]⟩ 3 =
      .ok (List.range 3) :=
  (c5_dataset_compatibility_check [4, 4] 1 ["a", "b"] ⟨[4, 4], 1, ["a", "b"]⟩ 3).1
    ⟨rfl, rfl, rfl⟩

/-- One scanned directory entry of _maybe_save_model (gain.py lines
193-211): its filename extension and, when the saved-model regex parses
the name, the (epoch, tag) pair. -/
structure DirEntry where
  ext : String
  parsed : Option (ℕ × String)
deriving DecidableEq

/-- Epoch of an entry whose name parsed (0 for unparsed names, which the
scan skips before ever reading an epoch). -/
def DirEntry.epochOf (p : DirEntry) : ℕ :=
  match p.parsed with
  | some (e, _) => e
  | none => 0

/-- An entry counts for the scan when its extension matches and its name
parsed to the requested tag (gain.py lines 194-204). -/
def entryMatches (extension tag : String) (p : DirEntry) : Bool :=
  p.ext == extension &&
    match p.parsed with
    | some (_, t) => t == tag
    | none => false

/-- Scan state of the deletion loop (gain.py lines 189-211): the number of
matching models seen, the running minimum epoch seeded with the current
epoch, and the current deletion candidate. -/
structure ScanState where
  numModels : ℕ
  maxEpoch : ℕ
  deleteCandidate : Option DirEntry
deriving DecidableEq

/-- Loop body of the retention scan (gain.py lines 193-211): skip on
extension mismatch, on a parse failure (logged warning) and on a tag
mismatch; otherwise count the model and, when its epoch undercuts the
running minimum, make it the deletion candidate. -/
def scanStep (extension tag : String) (st : ScanState) (p : DirEntry) : ScanState :=
  if p.ext ≠ extension then st
  else
    match p.parsed with
    | none => st
    | some (tempEpoch, tempTag) =>
        if tempTag ≠ tag then st
        else
          let st1 : ScanState := { st with numModels := st.numModels + 1 }
          if tempEpoch < st1.maxEpoch then
            { st1 with maxEpoch := tempEpoch, deleteCandidate := some p }
          else st1

/-- Deletion candidate of one save event (gain.py lines 189-215 and
244-246): the scan over the directory listing, then the save-count guard;
the file deleted, when any, is exactly this candidate. -/
def deleteCandidateFor (selfEpoch : ℕ) (extension tag : String) (saveCount : ℕ)
    (entries : List DirEntry) : Option DirEntry :=
  let st := entries.foldl (scanStep extension tag) ⟨0, selfEpoch, none⟩
  if st.numModels < saveCount then none else st.deleteCandidate

/-- Invariant of the retention scan: the counter counts the matching
entries seen, the running minimum bounds every matching epoch from below
and never exceeds the current epoch, and the candidate, when set, is a
matching processed entry achieving the running minimum strictly below the
current epoch. -/
def scanInv (selfEpoch : ℕ) (extension tag : String) (processed : List DirEntry)
    (st : ScanState) : Prop :=
  st.numModels = (processed.filter (entryMatches extension tag)).length
  ∧ st.maxEpoch ≤ selfEpoch
  ∧ (∀ q ∈ processed, entryMatches extension tag q = true → st.maxEpoch ≤ q.epochOf)
  ∧ (match st.deleteCandidate with
     | none => st.maxEpoch = selfEpoch
     | some p => p ∈ processed ∧ entryMatches extension tag p = true
         ∧ p.epochOf = st.maxEpoch ∧ st.maxEpoch < selfEpoch)

/-- One scan step preserves the invariant. -/
theorem scanStep_preserves (selfEpoch : ℕ) (extension tag : String)
    (processed : List DirEntry) (st : ScanState) (p : DirEntry)
    (h : scanInv selfEpoch extension tag processed st) :
    scanInv selfEpoch extension tag (processed ++ [p]) (scanStep extension tag st p) := by
  obtain ⟨hnum, hle, hmin, hcand⟩ := h
  have hskip : entryMatches extension tag p = false →
      scanInv selfEpoch extension tag (processed ++ [p]) st := by
    intro hm
    refine ⟨?_, hle, ?_, ?_⟩
    · rw [List.filter_append]
      simp [List.filter, hm, hnum]
    · intro q hq hqm
      rcases List.mem_append.mp hq with hq | hq
      · exact hmin q hq hqm
      · rw [List.mem_singleton.mp hq] at hqm
        rw [hqm] at hm
        cases hm
    · cases hc : st.deleteCandidate with
      | none => rw [hc] at hcand; exact hcand
      | some q =>
          rw [hc] at hcand
          exact ⟨List.mem_append_left _ hcand.1, hcand.2.1, hcand.2.2⟩
  unfold scanStep
  by_cases hext : p.ext = extension
  · cases hp : p.parsed with
    | none =>
        have hm : entryMatches extension tag p = false := by
          simp [entryMatches, hp]
        simp only [hext, ne_eq, not_true_eq_false, if_false, hp]
        exact hskip hm
    | some et =>
        obtain ⟨tempEpoch, tempTag⟩ := et
        by_cases htag : tempTag = tag
        · have hm : entryMatches extension tag p = true := by
            simp [entryMatches, hp, hext, htag]
          simp only [hext, ne_eq, not_true_eq_false, if_false, hp, htag]
          have hnum2 : ((processed ++ [p]).filter (entryMatches extension tag)).length =
              st.numModels + 1 := by
            rw [List.filter_append]
            simp [List.filter, hm, hnum]
          have hpe : p.epochOf = tempEpoch := by
            simp [DirEntry.epochOf, hp]
          by_cases heps : tempEpoch < st.maxEpoch
          · simp only [heps, if_true]
            unfold scanInv
            dsimp only
            refine ⟨hnum2.symm, by omega, ?_, ?_⟩
            · intro q hq hqm
              rcases List.mem_append.mp hq with hq | hq
              · have := hmin q hq hqm
                omega
              · rw [List.mem_singleton.mp hq, hpe]
            · exact ⟨List.mem_append_right _ (List.mem_singleton.mpr rfl), hm,
                hpe, by omega⟩
          · simp only [heps, if_false]
            unfold scanInv
            dsimp only
            refine ⟨hnum2.symm, hle, ?_, ?_⟩
            · intro q hq hqm
              rcases List.mem_append.mp hq with hq | hq
              · exact hmin q hq hqm
              · rw [List.mem_singleton.mp hq, hpe]
                omega
            · cases hc : st.deleteCandidate with
              | none => rw [hc] at hcand; exact hcand
              | some q =>
                  rw [hc] at hcand
                  exact ⟨List.mem_append_left _ hcand.1, hcand.2.1, hcand.2.2⟩
        · have hm : entryMatches extension tag p = false := by
            simp [entryMatches, hp, htag]
          simp only [hext, ne_eq, not_true_eq_false, if_false, hp, htag]
          exact hskip hm
  · have hm : entryMatches extension tag p = false := by
      simp [entryMatches, hext]
    simp only [hext, ne_eq, if_true]
    exact hskip hm

/-- The invariant carries through the whole fold. -/
theorem scanFold_inv (selfEpoch : ℕ) (extension tag : String) :
    ∀ (entries processed : List DirEntry) (st : ScanState),
      scanInv selfEpoch extension tag processed st →
      scanInv selfEpoch extension tag (processed ++ entries)
        (entries.foldl (scanStep extension tag) st) := by
  intro entries
  induction entries with
  | nil =>
      intro processed st h
      simpa using h
  | cons p rest ih =>
      intro processed st h
      have hstep := scanStep_preserves selfEpoch extension tag processed st p h
      have := ih (processed ++ [p]) _ hstep
      simpa [List.append_assoc] using this

/-- C7: per save event at most one checkpoint is deleted; the deletion
candidate, when present, is a scanned checkpoint carrying the requested tag
whose epoch is minimal among all scanned checkpoints with that tag (so
checkpoints with a different tag are never deleted); and no deletion occurs
while fewer than save_count checkpoints with the tag exist. -/
theorem c7_retention_deletes_only_oldest_same_tag (selfEpoch : ℕ)
    (extension tag : String) (saveCount : ℕ) (entries : List DirEntry) :
    ((deleteCandidateFor selfEpoch extension tag saveCount entries).toList.length ≤ 1)
  ∧ (∀ p, deleteCandidateFor selfEpoch extension tag saveCount entries = some p →
      p ∈ entries ∧ entryMatches extension tag p = true
        ∧ ∀ q ∈ entries, entryMatches extension tag q = true →
            p.epochOf ≤ q.epochOf)
  ∧ ((entries.filter (entryMatches extension tag)).length < saveCount →
      deleteCandidateFor selfEpoch extension tag saveCount entries = none) := by
  have hinv0 : scanInv selfEpoch extension tag []
      (⟨0, selfEpoch, none⟩ : ScanState) := by
    refine ⟨by simp, le_refl _, by simp, by simp⟩
  have hinv := scanFold_inv selfEpoch extension tag entries [] _ hinv0
  rw [List.nil_append] at hinv
  obtain ⟨hnum, hle, hmin, hcand⟩ := hinv
  refine ⟨?_, ?_, ?_⟩
  · simp only [deleteCandidateFor]
    split_ifs
    · simp
    · cases (entries.foldl (scanStep extension tag) ⟨0, selfEpoch, none⟩).deleteCandidate
      · simp
      · simp
  · intro p hp
    simp only [deleteCandidateFor] at hp
    split_ifs at hp
    rw [hp] at hcand
    refine ⟨hcand.1, hcand.2.1, ?_⟩
    intro q hq hqm
    have := hmin q hq hqm
    omega
  · intro hcount
    simp only [deleteCandidateFor]
    rw [if_pos (by rw [hnum]; exact hcount)]

/-- Witness for C7: with save_count 2 and three scanned files, the
candidate is the tag-matching file with the smallest epoch, which is a
member of the listing, matches the tag, and its minimality follows from
the theorem. -/
theorem c7_retention_deletes_only_oldest_same_tag_witness :
    deleteCandidateFor 5 ".pyt" "default" 2
        [⟨".pyt", some (3, "default")⟩, ⟨".pyt", some (1, "default")⟩,
         ⟨".pyt", some (4, "other")⟩] =
      some ⟨".pyt", some (1, "default")⟩
    ∧ (⟨".pyt", some (1, "default")⟩ : DirEntry) ∈
        [⟨".pyt", some (3, "default")⟩, ⟨".pyt", some (1, "default")⟩,
         ⟨".pyt", some (4, "other")⟩]
    ∧ entryMatches ".pyt" "default" ⟨".pyt", some (1, "default")⟩ = true :=
  ⟨by decide,
   ((c7_retention_deletes_only_oldest_same_tag 5 ".pyt" "default" 2
      [⟨".pyt", some (3, "default")⟩, ⟨".pyt", some (1, "default")⟩,
       ⟨".pyt", some (4, "other")⟩]).2.1 ⟨".pyt", some (1, "default")⟩
      (by decide)).1,
   ((c7_retention_deletes_only_oldest_same_tag 5 ".pyt" "default" 2
      [⟨".pyt", some (3, "default")⟩, ⟨".pyt", some (1, "default")⟩,
       ⟨".pyt", some (4, "other")⟩]).2.1 ⟨".pyt", some (1, "default")⟩
      (by decide)).2.1⟩

/-- Errors AttentionGAIN.__init__ can raise (gain.py lines 42-75 and
131-134). -/
inductive GainErr where
  | missingArg (argName : String)
  | epochWithoutWeights
  | layerNotFound (layerName : String)
deriving DecidableEq

/-- Construction arguments of AttentionGAIN.__init__ that the validation
reads (gain.py lines 26-75).  A none field (or a zero channel count)
models a missing or otherwise falsy argument; weights records whether a
weight blob was supplied. -/
structure InitConfig where
  modelType : Option String
  gradientLayerName : Option String
  inputChannels : ℕ
  inputDims : Option (ℕ × ℕ)
  weights : Bool
  epoch : ℕ

/-- AttentionGAIN._register_hooks (gain.py lines 113-134): the named
modules are scanned for the requested layer; hooks are registered on the
first match, otherwise an AttributeError is raised. -/
def registerHooks (namedModules : List String) (layerName : String) :
    Except GainErr Unit :=
  if layerName ∈ namedModules then .ok () else .error (.layerNotFound layerName)

/-- AttentionGAIN.__init__ (gain.py lines 42-75): argument validation in
source order, the weights/epoch consistency check, then the eager hook
registration via _register_hooks; a successful construction returns the
session configuration. -/
def constructSession (cfg : InitConfig) (namedModules : List String) :
    Except GainErr InitConfig :=
  match cfg.modelType with
  | none => .error (.missingArg "model_type")
  | some _ =>
    match cfg.gradientLayerName with
    | none => .error (.missingArg "gradient_layer_name")
    | some layerName =>
      if cfg.inputChannels = 0 then .error (.missingArg "input_channels")
      else
        match cfg.inputDims with
        | none => .error (.missingArg "input_dims")
        | some _ =>
          if cfg.weights = false ∧ 0 < cfg.epoch then .error .epochWithoutWeights
          else
            match registerHooks namedModules layerName with
            | .error e => .error e
            | .ok _ => .ok cfg

/-- C8: when the requested instrumentation layer name is absent from the
model's named layers, session construction itself fails with the
layer-not-found error (eagerly, before any use of the capture slot); when
the layer exists and the other validations pass, construction succeeds. -/
theorem c8_layer_not_found_fails_construction (cfg : InitConfig)
    (namedModules : List String) (mt layerName : String)
    (hmt : cfg.modelType = some mt)
    (hgl : cfg.gradientLayerName = some layerName)
    (hch : cfg.inputChannels ≠ 0)
    (hdims : cfg.inputDims.isSome = true)
    (hw : cfg.weights = true ∨ cfg.epoch = 0) :
    (layerName ∉ namedModules →
      constructSession cfg namedModules = .error (.layerNotFound layerName))
  ∧ (layerName ∈ namedModules →
      constructSession cfg namedModules = .ok cfg) := by
  obtain ⟨d, hd⟩ := Option.isSome_iff_exists.mp hdims
  have hwe : ¬ (cfg.weights = false ∧ 0 < cfg.epoch) := by
    rcases hw with hw | hw <;> simp [hw]
  constructor
  · intro hmem
    simp [constructSession, hmt, hgl, hch, hd, hwe, registerHooks, hmem]
  · intro hmem
    simp [constructSession, hmt, hgl, hch, hd, hwe, registerHooks, hmem]

/-- Witness for C8: a configuration passing every earlier validation but
naming a layer absent from the module list fails construction with the
layer-not-found error. -/
theorem c8_layer_not_found_fails_construction_witness :
    "missing" ∉ ["features", "conv1"]
    ∧ constructSession
        ⟨some "vgg16", some "missing", 3, some (224, 224), false, 0⟩
        ["features", "conv1"] = .error (.layerNotFound "missing") :=
  ⟨by decide,
   (c8_layer_not_found_fails_construction
      ⟨some "vgg16", some "missing", 3, some (224, 224), false, 0⟩
      ["features", "conv1"] "vgg16" "missing" rfl rfl (by decide) rfl
      (Or.inr rfl)).1 (by decide)⟩

end GainSpec
